import Mathlib

/-!
Verification of the windowed, filterable selection list in `edit/listing.go`.

The embedding models:
* `findScrollInterval` — the scrollbar thumb computation;
* `up`, `down`, `pageUp`, `pageDown` — the navigation operations of the
  listing state machine;
* `changeFilter`, `backspace`, `handleFilterKey` — the filter operations;
* the window-building loop of `List` (`loopStep` / `listLoop` / `runWindow`)
  together with the placeholder and scrollbar branches (`listRun`).

Conventions of the embedding:
* Go `int` values that are always non-negative in the program (counts,
  indices, heights) are modelled as `Nat`; values that can go negative
  (the selection index, scrollbar endpoints after the widening step,
  display widths) are modelled as `Int`.
* A rendered entry (the `styled` text returned by `provider.Show`) is
  modelled by its list of lines: Go computes `strings.Count(text, "\n") + 1`
  for the height and manipulates `strings.Split(text, "\n")`, which is
  exactly the line list.  Styles play no role in any claim and are omitted.
* The filter string is modelled as a list of runes (`List Char`); the Go
  string is its UTF-8 encoding, made explicit by `utf8Encode` below.
-/

namespace ElvishListing

/-- Model of `findScrollInterval(n, low, high, height int) (int, int)`.

Go computes `f(i) = int(float64(i)/float64(n)*float64(height) + 0.5)`,
i.e. the floor of `i/n*height + 1/2` (all arguments are non-negative).
This is modelled exactly in integer arithmetic as
`(2*i*height + n) / (2*n)`.  At every concrete input used in the theorems
below the float64 computation is exact (all intermediate values are
representable), so the model agrees with the Go code there.

The widening step follows the source literally: when the two mapped
endpoints coincide, the code compares `scrollHigh` with `high` (the upper
index of the displayed range), not with `height`. -/
def findScrollInterval (n low high height : Nat) : Int × Int :=
  let f : Nat → Nat := fun i => (2 * i * height + n) / (2 * n)
  let scrollLow := f low
  let scrollHigh := f high
  if scrollLow = scrollHigh then
    if scrollHigh = high then ((scrollLow : Int) - 1, (scrollHigh : Int))
    else ((scrollLow : Int), (scrollHigh : Int) + 1)
  else ((scrollLow : Int), (scrollHigh : Int))

/-- Model of `func (l *listing) up(cycle bool)`, as a function of the
provider count `n` and the current selection. -/
def up (n : Nat) (cycle : Bool) (selected : Int) : Int :=
  if n = 0 then selected
  else
    let s := selected - 1
    if s = -1 then (if cycle then s + n else s + 1) else s

/-- Model of `func (l *listing) down(cycle bool)`. -/
def down (n : Nat) (cycle : Bool) (selected : Int) : Int :=
  if n = 0 then selected
  else
    let s := selected + 1
    if s = (n : Int) then (if cycle then s - n else s - 1) else s

/-- Model of `func (l *listing) pageUp()`; `pagesize` is the stored page
size (`high - low` of the last render, hence non-negative). -/
def pageUp (n : Nat) (pagesize : Nat) (selected : Int) : Int :=
  if n = 0 then selected
  else
    let s := selected - pagesize
    if s < 0 then 0 else s

/-- Model of `func (l *listing) pageDown()`. -/
def pageDown (n : Nat) (pagesize : Nat) (selected : Int) : Int :=
  if n = 0 then selected
  else
    let s := selected + pagesize
    if (n : Int) ≤ s then (n : Int) - 1 else s

/-- One navigation call, used to talk about arbitrary call sequences. -/
inductive NavOp where
  | up (cycle : Bool)
  | down (cycle : Bool)
  | pageUp
  | pageDown
deriving DecidableEq

/-- Apply one navigation operation to the selection. -/
def navStep (n pagesize : Nat) (selected : Int) : NavOp → Int
  | .up cycle => up n cycle selected
  | .down cycle => down n cycle selected
  | .pageUp => pageUp n pagesize selected
  | .pageDown => pageDown n pagesize selected

/-- A valid listing selection, per the data-model invariant of the spec:
`selectedIndex = -1` exactly when the set is empty, otherwise
`0 ≤ selectedIndex < count`. -/
def ValidSel (n : Nat) (selected : Int) : Prop :=
  (n = 0 ∧ selected = -1) ∨ (0 ≤ selected ∧ selected < (n : Int))

instance (n : Nat) (s : Int) : Decidable (ValidSel n s) := by
  unfold ValidSel; infer_instance

/-- Model of the `listingProvider` interface (plus the optional
`Placeholderer` capability as an `Option`).  `Show i w` is the line list of
the styled text returned by `Show(i, w)`; `Filter` is the pure selection
function of the provider (`Accept` and `ModeTitle` play no role in any
claim and are omitted). -/
structure Provider where
  Len : Nat
  Show : Nat → Int → List String
  Filter : List Char → Int
  placeholder : Option String

/-- Model of `struct listing` (its mutable fields; the provider and the
mode type are fixed at construction and passed separately). -/
structure ListingState where
  selected : Int
  filter : List Char
  pagesize : Nat
deriving DecidableEq

/-- Model of `func (l *listing) changeFilter(newfilter string)`. -/
def changeFilter (p : Provider) (newfilter : List Char) (st : ListingState) :
    ListingState :=
  { st with filter := newfilter, selected := p.Filter newfilter }

/-- UTF-8 encoding of one rune, exactly the byte sequence Go produces for
a valid code point. -/
def utf8EncodeChar (c : Char) : List Nat :=
  if c.toNat < 0x80 then [c.toNat]
  else if c.toNat < 0x800 then
    [0xC0 ||| (c.toNat >>> 6), 0x80 ||| (c.toNat &&& 0x3F)]
  else if c.toNat < 0x10000 then
    [0xE0 ||| (c.toNat >>> 12), 0x80 ||| ((c.toNat >>> 6) &&& 0x3F),
     0x80 ||| (c.toNat &&& 0x3F)]
  else
    [0xF0 ||| (c.toNat >>> 18), 0x80 ||| ((c.toNat >>> 12) &&& 0x3F),
     0x80 ||| ((c.toNat >>> 6) &&& 0x3F), 0x80 ||| (c.toNat &&& 0x3F)]

/-- The byte string underlying a Go string, from its rune list. -/
def utf8Encode : List Char → List Nat
  | [] => []
  | c :: cs => utf8EncodeChar c ++ utf8Encode cs

/-- Model of the `size` result of `utf8.DecodeLastRuneInString(l.filter)`:
0 on the empty string, otherwise the byte length of the last rune.
(`l.filter` is always valid UTF-8: it is only ever mutated by appending a
rune and by removing the last rune.) -/
def decodeLastRuneSize (s : List Char) : Nat :=
  match s.getLast? with
  | none => 0
  | some c => (utf8EncodeChar c).length

/-- Model of `func (l *listing) backspace() bool`.  Removing the last
`size` bytes of a valid UTF-8 string removes exactly its last rune, i.e.
`dropLast` on the rune list (the byte-level fact is proved in
`utf8Encode_dropLast`). -/
def backspace (p : Provider) (st : ListingState) : Bool × ListingState :=
  let size := decodeLastRuneSize st.filter
  if 0 < size then (true, changeFilter p st.filter.dropLast st)
  else (false, st)

/-- Model of the filter-append path of
`func (l *listing) handleFilterKey(k Key) bool`: for a key that `likeChar`
accepts, the code runs `changeFilter(l.filter + string(k.Rune))`. -/
def handleFilterChar (p : Provider) (c : Char) (st : ListingState) :
    ListingState :=
  changeFilter p (st.filter ++ [c]) st

/-! ## The window-building loop of `List` -/

/-- The mutable state of the entry-collection loop in `List`: the range
`[low, high)`, the accumulated line height, the collected entries (the
`container/list` value, as a plain list: `PushFront` is `::`, `PushBack`
is `++ [·]`), and the `extendLow` flag. -/
structure LoopState where
  low : Nat
  high : Nat
  height : Nat
  entries : List (List String)
  extendLow : Bool
deriving DecidableEq

/-- One iteration of the loop body (lines 83-108 of `listing.go`), for
entry source `sh` (already specialised to the render width), total count
`n` and height budget `maxHeight`.  `getEntry i` is `sh i` with height
`(sh i).length`; eliding leading lines is `List.drop`, eliding trailing
lines is `List.take`. -/
def loopStep (sh : Nat → List String) (n maxHeight : Nat) (st : LoopState) :
    LoopState :=
  if (st.extendLow = true ∧ 0 < st.low) ∨ st.high = n then
    let low := st.low - 1
    let s := sh low
    let height := st.height + s.length
    if maxHeight < height then
      ⟨low, st.high, maxHeight, s.drop (height - maxHeight) :: st.entries,
       !st.extendLow⟩
    else
      ⟨low, st.high, height, s :: st.entries, !st.extendLow⟩
  else
    let s := sh st.high
    let height := st.height + s.length
    if maxHeight < height then
      ⟨st.low, st.high + 1, maxHeight,
       st.entries ++ [s.take (s.length - (height - maxHeight))],
       !st.extendLow⟩
    else
      ⟨st.low, st.high + 1, height, st.entries ++ [s], !st.extendLow⟩

/-- The loop guard: `height < maxHeight && !(low == 0 && high == n)`. -/
def loopGuard (n maxHeight : Nat) (st : LoopState) : Prop :=
  st.height < maxHeight ∧ ¬(st.low = 0 ∧ st.high = n)

instance (n maxHeight : Nat) (st : LoopState) :
    Decidable (loopGuard n maxHeight st) := by
  unfold loopGuard; infer_instance

/-- The loop, with an explicit iteration bound. -/
def listLoopFuel (sh : Nat → List String) (n maxHeight : Nat) :
    Nat → LoopState → LoopState
  | 0, st => st
  | fuel + 1, st =>
    if loopGuard n maxHeight st then
      listLoopFuel sh n maxHeight fuel (loopStep sh n maxHeight st)
    else st

/-- Upper bound on the remaining number of iterations: every iteration
either decrements `low` or increments `high < n`, so `low + (n - high)`
decreases by exactly one per iteration while `high ≤ n`. -/
def loopMeasure (n : Nat) (st : LoopState) : Nat :=
  st.low + (n - st.high)

/-- The entry-collection loop of `List`.  The bound `loopMeasure n st` is
exact whenever `st.high ≤ n` (which holds at every call site):
`listLoop_eq_fuel` below shows the result does not change with any larger
bound, so this is a faithful model of the unbounded `for` loop. -/
def listLoop (sh : Nat → List String) (n maxHeight : Nat) (st : LoopState) :
    LoopState :=
  listLoopFuel sh n maxHeight (loopMeasure n st) st

/-- The seed index of the window: `low := l.selected; if low == -1 { low = 0 }`. -/
def seedOf (selected : Int) : Nat :=
  if selected = -1 then 0 else selected.toNat

/-- The loop as run by `List`: starting from `low = high = seed`,
`height = 0`, no entries, `extendLow = false`. -/
def runWindow (sh : Nat → List String) (n maxHeight seed : Nat) : LoopState :=
  listLoop sh n maxHeight ⟨seed, seed, 0, [], false⟩

/-- Total rendered height of the entries in `[low, high)`. -/
def heightsSum (sh : Nat → List String) (low high : Nat) : Nat :=
  (Finset.Ico low high).sum fun i => (sh i).length

/-- The result of `List(width, maxHeight)`: either the placeholder branch
(`n == 0`) or the realized window.  For the window, the model records the
range, its height, the collected (possibly truncated) entries, the
scrollbar thumb interval when a scrollbar is shown (`renderScrollbar`
draws exactly the interval computed by `findScrollInterval`), and the
width left for the entry columns after reserving the scrollbar column.
The selected-style overlay and the final glyph buffer are presentation
only and are not modelled. -/
inductive ListOutput where
  | placeholder (text : String)
  | window (low high height : Nat) (entries : List (List String))
      (scrollbar : Option (Int × Int)) (effWidth : Int)
deriving DecidableEq

/-- The scrollbar interval of an output, when one is shown. -/
def ListOutput.scrollbarOf : ListOutput → Option (Int × Int)
  | .placeholder _ => none
  | .window _ _ _ _ sb _ => sb

/-- The width left for the entry columns (`none` for the placeholder
branch, which writes the placeholder at the full width). -/
def ListOutput.widthOf : ListOutput → Option Int
  | .placeholder _ => none
  | .window _ _ _ _ _ w => some w

/-- Model of `func (l *listing) List(width, maxHeight int) *buffer`
(including its write to `l.pagesize`).  In the source the placeholder
text is passed through `TrimWcWidth(ph, width)` before being written;
`TrimWcWidth` is defined outside this package and only trims the text to
`width` columns, so the model records the chosen text itself. -/
def listRun (p : Provider) (width : Int) (maxHeight : Nat)
    (st : ListingState) : ListOutput × ListingState :=
  if p.Len = 0 then
    (.placeholder (match p.placeholder with
      | some ph => ph
      | none => "(no result)"), st)
  else
    let r := runWindow (fun i => p.Show i width) p.Len maxHeight
      (seedOf st.selected)
    let sb : Option (Int × Int) :=
      if 0 < r.low ∨ r.high < p.Len - 1 then
        some (findScrollInterval p.Len r.low r.high r.height)
      else none
    (.window r.low r.high r.height r.entries sb
      (if 0 < r.low ∨ r.high < p.Len - 1 then width - 1 else width),
     { st with pagesize := r.high - r.low })

/-- Invariant maintained by the collection loop from its initial state
`low = high = seed`, `height = 0`, `entries = []`:
the range is well-formed and within `[0, n]`, the accumulated height never
exceeds the budget nor the total height of the collected range, the
collected entries render to exactly `height` lines, and there is one
collected entry per index of the range. -/
def LoopInv (sh : Nat → List String) (n mh : Nat) (st : LoopState) : Prop :=
  st.low ≤ st.high ∧ st.high ≤ n ∧ st.height ≤ mh ∧
  st.height ≤ heightsSum sh st.low st.high ∧
  (st.entries.map List.length).sum = st.height ∧
  st.entries.length = st.high - st.low

/-- Concrete one-line entry source used by witnesses. -/
def wShow : Nat → List String := fun _ => ["x"]

/-- Concrete three-line entry source used by witnesses. -/
def wTall : Nat → List String := fun _ => ["a", "b", "c"]

/-- Concrete provider with five one-line entries, used by witnesses. -/
def wProv : Provider := ⟨5, fun _ _ => ["x"], fun f => (f.length : Int), none⟩

/-- Concrete provider with an empty entry set, used by witnesses. -/
def wProvEmpty : Provider := ⟨0, fun _ _ => ["x"], fun _ => -1, some "no matches"⟩

/-- Concrete listing state used by witnesses. -/
def wState : ListingState := ⟨0, ['a', 'b'], 2⟩

/-! ## Helper lemmas -/

theorem utf8EncodeChar_length_pos (c : Char) : 0 < (utf8EncodeChar c).length := by
  unfold utf8EncodeChar
  split_ifs <;> simp

theorem utf8Encode_append (a b : List Char) :
    utf8Encode (a ++ b) = utf8Encode a ++ utf8Encode b := by
  induction a with
  | nil => rfl
  | cons c cs ih => simp [utf8Encode, ih]

theorem loopStep_mono (sh : Nat → List String) (n mh : Nat) (st : LoopState) :
    (loopStep sh n mh st).low ≤ st.low ∧ st.high ≤ (loopStep sh n mh st).high := by
  simp only [loopStep]
  split_ifs <;> refine ⟨?_, ?_⟩ <;> dsimp only <;> omega

theorem loopStep_height_le (sh : Nat → List String) (n mh : Nat)
    (st : LoopState) : (loopStep sh n mh st).height ≤ mh := by
  simp only [loopStep]
  split_ifs <;> dsimp only <;> omega

theorem loopStep_measure (sh : Nat → List String) (n mh : Nat) (st : LoopState)
    (hg : loopGuard n mh st) (hh : st.high ≤ n) :
    (loopStep sh n mh st).high ≤ n ∧
      loopMeasure n (loopStep sh n mh st) + 1 = loopMeasure n st := by
  obtain ⟨-, hne⟩ := hg
  simp only [loopStep]
  split_ifs with h1 h2
  all_goals simp only [loopMeasure]
  · rcases h1 with ⟨-, hlow⟩ | hhn
    · exact ⟨hh, by omega⟩
    · have : st.low ≠ 0 := fun h0 => hne ⟨h0, hhn⟩
      exact ⟨hh, by omega⟩
  · rcases h1 with ⟨-, hlow⟩ | hhn
    · exact ⟨hh, by omega⟩
    · have : st.low ≠ 0 := fun h0 => hne ⟨h0, hhn⟩
      exact ⟨hh, by omega⟩
  · have : st.high ≠ n := fun h => h1 (Or.inr h)
    exact ⟨by omega, by omega⟩
  · have : st.high ≠ n := fun h => h1 (Or.inr h)
    exact ⟨by omega, by omega⟩

theorem listLoopFuel_mono (sh : Nat → List String) (n mh fuel : Nat)
    (st : LoopState) :
    (listLoopFuel sh n mh fuel st).low ≤ st.low ∧
      st.high ≤ (listLoopFuel sh n mh fuel st).high := by
  induction fuel generalizing st with
  | zero => exact ⟨le_rfl, le_rfl⟩
  | succ fuel ih =>
    rw [listLoopFuel]
    split_ifs with hg
    · have h1 := ih (loopStep sh n mh st)
      have h2 := loopStep_mono sh n mh st
      exact ⟨h1.1.trans h2.1, h2.2.trans h1.2⟩
    · exact ⟨le_rfl, le_rfl⟩

theorem listLoopFuel_height_le (sh : Nat → List String) (n mh fuel : Nat)
    (st : LoopState) :
    st.height ≤ mh → (listLoopFuel sh n mh fuel st).height ≤ mh := by
  induction fuel generalizing st with
  | zero => exact fun h => h
  | succ fuel ih =>
    intro h
    rw [listLoopFuel]
    split_ifs with hg
    · exact ih _ (loopStep_height_le sh n mh st)
    · exact h

theorem heightsSum_succ_bot (sh : Nat → List String) {a b : Nat} (h : a < b) :
    heightsSum sh a b = (sh a).length + heightsSum sh (a + 1) b :=
  Finset.sum_eq_sum_Ico_succ_bot h _

theorem heightsSum_succ_top (sh : Nat → List String) {a b : Nat} (h : a ≤ b) :
    heightsSum sh a (b + 1) = heightsSum sh a b + (sh b).length :=
  Finset.sum_Ico_succ_top h _

theorem loopStep_inv (sh : Nat → List String) (n mh : Nat) (st : LoopState)
    (hg : loopGuard n mh st) (hinv : LoopInv sh n mh st) :
    LoopInv sh n mh (loopStep sh n mh st) := by
  obtain ⟨hlh, hhn, hhm, hhs, hes, hel⟩ := hinv
  obtain ⟨hlt, hne⟩ := hg
  simp only [loopStep]
  split_ifs with h1 h2 h2
  · -- extend low, entry truncated
    have hpos : 0 < st.low := by
      rcases h1 with ⟨-, h⟩ | h
      · exact h
      · exact Nat.pos_of_ne_zero fun h0 => hne ⟨h0, h⟩
    have hsplit : heightsSum sh (st.low - 1) st.high =
        (sh (st.low - 1)).length + heightsSum sh st.low st.high := by
      have h' := heightsSum_succ_bot sh
        (a := st.low - 1) (b := st.high) (by omega)
      have e : st.low - 1 + 1 = st.low := by omega
      rwa [e] at h'
    simp only [LoopInv]
    refine ⟨by omega, hhn, le_rfl, by omega, ?_, ?_⟩
    · simp only [List.map_cons, List.sum_cons, List.length_drop, hes]
      omega
    · simp only [List.length_cons, hel]
      omega
  · -- extend low, entry fits
    have hpos : 0 < st.low := by
      rcases h1 with ⟨-, h⟩ | h
      · exact h
      · exact Nat.pos_of_ne_zero fun h0 => hne ⟨h0, h⟩
    have hsplit : heightsSum sh (st.low - 1) st.high =
        (sh (st.low - 1)).length + heightsSum sh st.low st.high := by
      have h' := heightsSum_succ_bot sh
        (a := st.low - 1) (b := st.high) (by omega)
      have e : st.low - 1 + 1 = st.low := by omega
      rwa [e] at h'
    simp only [LoopInv]
    refine ⟨by omega, hhn, by omega, by omega, ?_, ?_⟩
    · simp only [List.map_cons, List.sum_cons, hes]
      omega
    · simp only [List.length_cons, hel]
      omega
  · -- extend high, entry truncated
    have hlt' : st.high < n :=
      Nat.lt_of_le_of_ne hhn fun h => h1 (Or.inr h)
    have hsplit := heightsSum_succ_top sh (a := st.low) (b := st.high) hlh
    simp only [LoopInv]
    refine ⟨by omega, by omega, le_rfl, by omega, ?_, ?_⟩
    · simp only [List.map_append, List.sum_append, List.map_cons,
        List.sum_cons, List.map_nil, List.sum_nil, List.length_take, hes]
      omega
    · simp only [List.length_append, List.length_cons, List.length_nil, hel]
      omega
  · -- extend high, entry fits
    have hlt' : st.high < n :=
      Nat.lt_of_le_of_ne hhn fun h => h1 (Or.inr h)
    have hsplit := heightsSum_succ_top sh (a := st.low) (b := st.high) hlh
    simp only [LoopInv]
    refine ⟨by omega, by omega, by omega, by omega, ?_, ?_⟩
    · simp only [List.map_append, List.sum_append, List.map_cons,
        List.sum_cons, List.map_nil, List.sum_nil, hes]
      omega
    · simp only [List.length_append, List.length_cons, List.length_nil, hel]
      omega

theorem listLoopFuel_inv (sh : Nat → List String) (n mh fuel : Nat)
    (st : LoopState) :
    LoopInv sh n mh st → LoopInv sh n mh (listLoopFuel sh n mh fuel st) := by
  induction fuel generalizing st with
  | zero => exact fun h => h
  | succ fuel ih =>
    intro h
    rw [listLoopFuel]
    split_ifs with hg
    · exact ih _ (loopStep_inv sh n mh st hg h)
    · exact h

theorem listLoopFuel_exit (sh : Nat → List String) (n mh fuel : Nat)
    (st : LoopState) :
    st.high ≤ n → loopMeasure n st ≤ fuel →
      ¬ loopGuard n mh (listLoopFuel sh n mh fuel st) := by
  induction fuel generalizing st with
  | zero =>
    intro hh hm hg
    simp only [listLoopFuel] at hg
    simp only [loopMeasure] at hm
    exact hg.2 ⟨by omega, by omega⟩
  | succ fuel ih =>
    intro hh hm
    rw [listLoopFuel]
    split_ifs with hg
    · obtain ⟨h1, h2⟩ := loopStep_measure sh n mh st hg hh
      exact ih _ h1 (by omega)
    · exact hg

theorem listLoop_step_eq (sh : Nat → List String) (n mh : Nat)
    (st : LoopState) (hg : loopGuard n mh st) (hh : st.high ≤ n) :
    listLoop sh n mh st = listLoop sh n mh (loopStep sh n mh st) := by
  unfold listLoop
  obtain ⟨-, h2⟩ := loopStep_measure sh n mh st hg hh
  rw [← h2, listLoopFuel, if_pos hg]

theorem listLoop_stop (sh : Nat → List String) (n mh : Nat) (st : LoopState)
    (hng : ¬ loopGuard n mh st) : listLoop sh n mh st = st := by
  unfold listLoop
  cases loopMeasure n st with
  | zero => rfl
  | succ k => rw [listLoopFuel, if_neg hng]

theorem listLoop_eq_fuel (sh : Nat → List String) (n mh fuel : Nat)
    (st : LoopState) :
    st.high ≤ n → loopMeasure n st ≤ fuel →
      listLoopFuel sh n mh fuel st = listLoop sh n mh st := by
  induction fuel generalizing st with
  | zero =>
    intro hh hm
    have h0 : loopMeasure n st = 0 := by omega
    rw [listLoopFuel]
    unfold listLoop
    rw [h0]
    rfl
  | succ fuel ih =>
    intro hh hm
    by_cases hg : loopGuard n mh st
    · obtain ⟨h1, h2⟩ := loopStep_measure sh n mh st hg hh
      rw [listLoopFuel, if_pos hg, listLoop_step_eq sh n mh st hg hh]
      exact ih _ h1 (by omega)
    · rw [listLoopFuel, if_neg hg, listLoop_stop sh n mh st hg]

theorem navStep_valid (n ps : Nat) (s : Int) (op : NavOp)
    (h : ValidSel n s) : ValidSel n (navStep n ps s op) := by
  rcases op with cycle | cycle | _ | _ <;>
    simp only [navStep, up, down, pageUp, pageDown, ValidSel] at h ⊢ <;>
    split_ifs <;> omega

theorem navFold_valid (n ps : Nat) (ops : List NavOp) :
    ∀ s : Int, ValidSel n s → ValidSel n (ops.foldl (navStep n ps) s) := by
  induction ops with
  | nil => exact fun s h => h
  | cons op ops ih => exact fun s h => ih _ (navStep_valid n ps s op h)

/-! ## Claim theorems -/

/-- C1 (code bug evaluation): the scrollbar invariant
`0 ≤ slow < shigh ≤ h` fails on the code.  At `n = 2`, `low = 1`,
`high = 2`, `height = 1` (a valid range: `0 ≤ low ≤ high ≤ n`, `h > 0`)
both endpoints map to 1; the mapped high equals the rendered height, so
widening downward runs past the track, yielding the interval `(1, 2)`
with `shigh = 2 > h = 1`. -/
theorem findScrollInterval_exceeds_height :
    findScrollInterval 2 1 2 1 = (1, 2) ∧
      ¬ (findScrollInterval 2 1 2 1).2 ≤ (1 : Int) := by decide

/-- C2 (code bug evaluation): the degeneracy rule is implemented against
the wrong comparand.  At `n = 4`, `low = 2`, `high = 4`, `height = 1`
both endpoints map to 1 and the mapped high (1) equals the rendered
height, so per the claim the thumb must be widened upward to `(0, 1)`;
the code instead compares the mapped high with the range index `high`
(4), finds them different, and widens downward to `(1, 2)`, past the
track. -/
theorem findScrollInterval_wrong_comparand :
    findScrollInterval 4 2 4 1 = (1, 2) := by decide

/-- C4: starting from a valid listing state (`selectedIndex = -1` exactly
when the set is empty, else `0 ≤ selectedIndex < count`), every sequence
of `up`/`down`/`pageUp`/`pageDown` calls keeps the selection valid and in
`[-1, count-1]`; wraparound at the boundaries happens exactly for
`cycle = true` (`up` at 0 wraps to `count-1` iff `cycle`, `down` at
`count-1` wraps to 0 iff `cycle`); `pageUp`/`pageDown` clamp to 0 and
`count-1` and never wrap; and all four operations are no-ops when
`count = 0`. -/
theorem nav_sequence_invariant (n ps : Nat) (s : Int) (hv : ValidSel n s) :
    (∀ ops : List NavOp, ValidSel n (ops.foldl (navStep n ps) s)) ∧
    (∀ ops : List NavOp, -1 ≤ ops.foldl (navStep n ps) s ∧
      ops.foldl (navStep n ps) s ≤ (n : Int) - 1) ∧
    (0 < n → up n true 0 = (n : Int) - 1 ∧ up n false 0 = 0 ∧
      down n true ((n : Int) - 1) = 0 ∧
      down n false ((n : Int) - 1) = (n : Int) - 1) ∧
    (0 < n → 0 ≤ s → pageUp n ps s = max (s - (ps : Int)) 0 ∧
      pageDown n ps s = min (s + (ps : Int)) ((n : Int) - 1)) ∧
    (n = 0 → ∀ op : NavOp, navStep n ps s op = s) := by
  refine ⟨fun ops => navFold_valid n ps ops s hv, ?_, ?_, ?_, ?_⟩
  · intro ops
    have h := navFold_valid n ps ops s hv
    simp only [ValidSel] at h
    omega
  · intro hn
    refine ⟨?_, ?_, ?_, ?_⟩ <;> simp only [up, down] <;> split_ifs <;>
      first
      | contradiction
      | omega
  · intro hn hs
    constructor <;> simp only [pageUp, pageDown] <;> split_ifs <;> omega
  · intro h0 op
    rcases op <;> simp [navStep, up, down, pageUp, pageDown, h0]

/-- C4 witness: the theorem applied at `n = 3`, `pagesize = 2`,
`selected = 1` and a concrete call sequence. -/
theorem nav_sequence_invariant_witness :
    ValidSel 3 1 ∧
      ValidSel 3 ([NavOp.up true, NavOp.pageDown].foldl (navStep 3 2) 1) :=
  ⟨by decide,
   (nav_sequence_invariant 3 2 1 (by decide)).1 [NavOp.up true, NavOp.pageDown]⟩

theorem decodeLastRuneSize_pos (s : List Char) (hs : s ≠ []) :
    0 < decodeLastRuneSize s := by
  unfold decodeLastRuneSize
  rw [List.getLast?_eq_getLast s hs]
  exact utf8EncodeChar_length_pos _

theorem utf8Encode_dropLast (s : List Char) (hs : s ≠ []) :
    utf8Encode s.dropLast =
      (utf8Encode s).take ((utf8Encode s).length - decodeLastRuneSize s) := by
  have h1 : s.dropLast ++ [s.getLast hs] = s := List.dropLast_append_getLast hs
  have h2 : decodeLastRuneSize s = (utf8EncodeChar (s.getLast hs)).length := by
    unfold decodeLastRuneSize
    rw [List.getLast?_eq_getLast s hs]
  have h4 : utf8Encode s =
      utf8Encode s.dropLast ++ utf8EncodeChar (s.getLast hs) := by
    conv_lhs => rw [← h1]
    simp [utf8Encode_append, utf8Encode]
  rw [h4, h2]
  have h5 : (utf8Encode s.dropLast ++ utf8EncodeChar (s.getLast hs)).length -
      (utf8EncodeChar (s.getLast hs)).length = (utf8Encode s.dropLast).length := by
    simp
  rw [h5]
  exact (List.take_left _ _).symm

/-- C7: `backspace` returns `false` and leaves the listing state unchanged
when the filter is empty; on a non-empty filter it returns `true`, removes
exactly the last rune (at the byte level: it keeps exactly the UTF-8 bytes
before the last rune, never splitting a multi-byte character), re-runs the
provider filter on the shortened text and adopts the returned selection. -/
theorem backspace_spec (p : Provider) (st : ListingState) :
    (st.filter = [] → backspace p st = (false, st)) ∧
    (st.filter ≠ [] →
      (backspace p st).1 = true ∧
      (backspace p st).2.filter = st.filter.dropLast ∧
      (backspace p st).2.selected = p.Filter st.filter.dropLast ∧
      (backspace p st).2.pagesize = st.pagesize ∧
      utf8Encode (backspace p st).2.filter =
        (utf8Encode st.filter).take
          ((utf8Encode st.filter).length - decodeLastRuneSize st.filter)) := by
  constructor
  · intro h
    simp [backspace, decodeLastRuneSize, h]
  · intro h
    have hpos := decodeLastRuneSize_pos st.filter h
    simp only [backspace, if_pos hpos, changeFilter]
    exact ⟨trivial, trivial, trivial, trivial, utf8Encode_dropLast st.filter h⟩

/-- C7 witness: the theorem applied at a concrete provider and the state
with filter `"ab"`. -/
theorem backspace_spec_witness :
    wState.filter ≠ [] ∧ (backspace wProv wState).1 = true ∧
      (backspace wProv wState).2.filter = ['a'] :=
  ⟨by decide, ((backspace_spec wProv wState).2 (by decide)).1, by
    have h := ((backspace_spec wProv wState).2 (by decide)).2.1
    rw [h]
    decide⟩

/-- C8: appending a character to the filter and then backspacing restores
the filter text and re-selects exactly what the provider-supplied
`Filter` returns for the restored text — the state is the same as from
`changeFilter` applied to the original text (providers are modelled as
pure functions, hence deterministic). -/
theorem append_backspace_roundtrip (p : Provider) (c : Char)
    (st : ListingState) :
    (backspace p (handleFilterChar p c st)).1 = true ∧
    (backspace p (handleFilterChar p c st)).2.filter = st.filter ∧
    (backspace p (handleFilterChar p c st)).2.selected = p.Filter st.filter ∧
    (backspace p (handleFilterChar p c st)).2 = changeFilter p st.filter st := by
  have hpos : 0 < decodeLastRuneSize (st.filter ++ [c]) :=
    decodeLastRuneSize_pos _ (by simp)
  refine ⟨?_, ?_, ?_, ?_⟩ <;>
    simp [backspace, handleFilterChar, changeFilter, hpos,
      List.dropLast_concat]

/-- C9: when the provider count is 0, `List` skips windowing and returns
only the placeholder text (the provider placeholder when the optional
capability is present, else the generic `"(no result)"`), leaves the
listing state untouched, and all four navigation operations are no-ops. -/
theorem placeholder_on_empty (p : Provider) (width : Int) (mh : Nat)
    (st : ListingState) (hn : p.Len = 0) :
    (listRun p width mh st).1 =
      ListOutput.placeholder (p.placeholder.getD "(no result)") ∧
    (listRun p width mh st).2 = st ∧
    (∀ cycle s, up p.Len cycle s = s) ∧
    (∀ cycle s, down p.Len cycle s = s) ∧
    (∀ ps s, pageUp p.Len ps s = s) ∧
    (∀ ps s, pageDown p.Len ps s = s) := by
  refine ⟨?_, ?_, ?_, ?_, ?_, ?_⟩
  · simp only [listRun, if_pos hn]
    cases hp : p.placeholder <;> simp [hp]
  · simp [listRun, hn]
  · intro cycle s; simp [up, hn]
  · intro cycle s; simp [down, hn]
  · intro ps s; simp [pageUp, hn]
  · intro ps s; simp [pageDown, hn]

/-- C9 witness: the theorem applied at the concrete empty provider, which
does implement the placeholder capability. -/
theorem placeholder_on_empty_witness :
    wProvEmpty.Len = 0 ∧
      (listRun wProvEmpty 10 5 wState).1 = ListOutput.placeholder "no matches" :=
  ⟨by decide, by
    have h := (placeholder_on_empty wProvEmpty 10 5 wState (by decide)).1
    rw [h]
    decide⟩

theorem loopStep_init (sh : Nat → List String) (n mh seed : Nat)
    (hseed : seed < n) :
    loopStep sh n mh ⟨seed, seed, 0, [], false⟩ =
      ⟨seed, seed + 1, min (sh seed).length mh, [(sh seed).take mh], true⟩ := by
  have hcond : ¬(((false : Bool) = true ∧ 0 < seed) ∨ seed = n) := by
    rintro (⟨hfalse, -⟩ | heq)
    · cases hfalse
    · omega
  simp only [loopStep, if_neg hcond]
  split_ifs with ht
  · have e1 : (sh seed).length - (0 + (sh seed).length - mh) = mh := by omega
    have e2 : mh = min (sh seed).length mh := by omega
    rw [e1, ← e2]
    rfl
  · have e2 : 0 + (sh seed).length = min (sh seed).length mh := by omega
    have e3 : (sh seed).take mh = sh seed := List.take_of_length_le (by omega)
    rw [e3, ← e2]
    rfl

theorem le_heightsSum (sh : Nat → List String) (n a b : Nat) (hbn : b ≤ n)
    (hne : ∀ i, i < n → sh i ≠ []) : b - a ≤ heightsSum sh a b := by
  have h1 : b - a = (Finset.Ico a b).sum fun _ => 1 := by simp
  rw [h1]
  exact Finset.sum_le_sum fun i hi =>
    List.length_pos.mpr (hne i (by have := (Finset.mem_Ico.mp hi).2; omega))

/-- C3 counterexample: the claim quantifies over every render, but a
render with `maxHeight = 0` realizes the empty window `[seed, seed)`,
which does not contain the selected index.  Concretely with one single
one-line entry, `selectedIndex = 0` and `maxHeight = 0`, the produced
window `[0, 0)` violates `low ≤ selectedIndex < high`. -/
theorem window_invariant_cex :
    ¬ ((runWindow wShow 1 0 0).low ≤ 0 ∧ 0 < (runWindow wShow 1 0 0).high) := by
  decide

/-- C3 (amended: additionally assuming `maxHeight ≥ 1`): for every render
of a non-empty set with `selectedIndex ∈ [0, count)` and a positive
height budget, the realized window contains the selected index, the
total rendered line height (both the accumulated `height` counter and
the actual number of lines of the collected entries) never exceeds
`maxHeight`, and the window is the full set whenever the total rendered
height of all entries fits in `maxHeight`. -/
theorem window_invariant (sh : Nat → List String) (n mh sel : Nat)
    (hn : 0 < n) (hsel : sel < n) (hmh : 0 < mh)
    (hne : ∀ i, i < n → sh i ≠ []) :
    (runWindow sh n mh sel).low ≤ sel ∧ sel < (runWindow sh n mh sel).high ∧
    (runWindow sh n mh sel).height ≤ mh ∧
    ((runWindow sh n mh sel).entries.map List.length).sum ≤ mh ∧
    (heightsSum sh 0 n ≤ mh →
      (runWindow sh n mh sel).low = 0 ∧ (runWindow sh n mh sel).high = n) := by
  have hh : (⟨sel, sel, 0, [], false⟩ : LoopState).high ≤ n := le_of_lt hsel
  have hinv0 : LoopInv sh n mh ⟨sel, sel, 0, [], false⟩ :=
    ⟨le_rfl, le_of_lt hsel, Nat.zero_le _, Nat.zero_le _, rfl, by simp⟩
  have hguard : loopGuard n mh ⟨sel, sel, 0, [], false⟩ := by
    refine ⟨hmh, ?_⟩
    rintro ⟨h0, hn'⟩
    dsimp at h0 hn'
    omega
  have hr : runWindow sh n mh sel =
      listLoopFuel sh n mh (loopMeasure n ⟨sel, sel, 0, [], false⟩)
        ⟨sel, sel, 0, [], false⟩ := rfl
  have hinv := listLoopFuel_inv sh n mh
    (loopMeasure n ⟨sel, sel, 0, [], false⟩) ⟨sel, sel, 0, [], false⟩ hinv0
  rw [← hr] at hinv
  obtain ⟨hlh, hhn, hhm, hhs, hes, -⟩ := hinv
  have hexit := listLoopFuel_exit sh n mh
    (loopMeasure n ⟨sel, sel, 0, [], false⟩) ⟨sel, sel, 0, [], false⟩ hh le_rfl
  rw [← hr] at hexit
  have hmono := listLoopFuel_mono sh n mh
    (loopMeasure n ⟨sel, sel, 0, [], false⟩) ⟨sel, sel, 0, [], false⟩
  rw [← hr] at hmono
  have hstep : runWindow sh n mh sel =
      listLoop sh n mh (loopStep sh n mh ⟨sel, sel, 0, [], false⟩) :=
    listLoop_step_eq sh n mh _ hguard hh
  have hselhigh : sel + 1 ≤ (runWindow sh n mh sel).high := by
    rw [hstep, loopStep_init sh n mh sel hsel]
    unfold listLoop
    exact (listLoopFuel_mono sh n mh
      (loopMeasure n ⟨sel, sel + 1, min (sh sel).length mh,
        [(sh sel).take mh], true⟩)
      ⟨sel, sel + 1, min (sh sel).length mh, [(sh sel).take mh], true⟩).2
  refine ⟨hmono.1, by omega, hhm, by omega, ?_⟩
  intro hsum
  unfold loopGuard at hexit
  by_contra hcon
  have hge : mh ≤ (runWindow sh n mh sel).height := by
    by_contra hlt
    exact hexit ⟨by omega, hcon⟩
  have hsplit1 : heightsSum sh 0 (runWindow sh n mh sel).low +
      heightsSum sh (runWindow sh n mh sel).low n = heightsSum sh 0 n :=
    Finset.sum_Ico_consecutive _ (Nat.zero_le _) (le_trans hlh hhn)
  have hsplit2 : heightsSum sh (runWindow sh n mh sel).low
        (runWindow sh n mh sel).high +
      heightsSum sh (runWindow sh n mh sel).high n =
        heightsSum sh (runWindow sh n mh sel).low n :=
    Finset.sum_Ico_consecutive _ hlh hhn
  rcases not_and_or.mp hcon with h | h
  · have h1 : (runWindow sh n mh sel).low - 0 ≤
        heightsSum sh 0 (runWindow sh n mh sel).low :=
      le_heightsSum sh n 0 _ (le_trans hlh hhn) hne
    omega
  · have h2 : n - (runWindow sh n mh sel).high ≤
        heightsSum sh (runWindow sh n mh sel).high n :=
      le_heightsSum sh n _ n le_rfl hne
    omega

/-- C3 witness: the amended theorem applied at two one-line entries,
`selectedIndex = 1`, `maxHeight = 3`. -/
theorem window_invariant_witness :
    (runWindow wShow 2 3 1).low ≤ 1 ∧ 1 < (runWindow wShow 2 3 1).high :=
  ⟨(window_invariant wShow 2 3 1 (by decide) (by decide) (by decide)
      (fun i _ => List.cons_ne_nil "x" [])).1,
   (window_invariant wShow 2 3 1 (by decide) (by decide) (by decide)
      (fun i _ => List.cons_ne_nil "x" [])).2.1⟩

/-- C5: when the loop adds an entry that would overflow the remaining
height budget, the entry is truncated line-wise and the accumulated
height is capped at exactly `maxHeight`: an entry added at the high end
keeps only its leading `maxHeight - height` lines (`List.take`), an
entry added at the low end keeps only its trailing `maxHeight - height`
lines (`List.drop`), and the resulting loop height never exceeds
`maxHeight`. -/
theorem truncation_spec (sh : Nat → List String) (n mh : Nat) (st : LoopState)
    (hg1 : st.height < mh) (hg2 : ¬(st.low = 0 ∧ st.high = n))
    (hh : st.high ≤ n) :
    (¬((st.extendLow = true ∧ 0 < st.low) ∨ st.high = n) →
      mh < st.height + (sh st.high).length →
      listLoop sh n mh st =
        listLoop sh n mh ⟨st.low, st.high + 1, mh,
          st.entries ++ [(sh st.high).take (mh - st.height)], !st.extendLow⟩) ∧
    (((st.extendLow = true ∧ 0 < st.low) ∨ st.high = n) →
      mh < st.height + (sh (st.low - 1)).length →
      listLoop sh n mh st =
        listLoop sh n mh ⟨st.low - 1, st.high, mh,
          (sh (st.low - 1)).drop
            ((sh (st.low - 1)).length - (mh - st.height)) :: st.entries,
          !st.extendLow⟩) ∧
    (listLoop sh n mh st).height ≤ mh := by
  have hg : loopGuard n mh st := ⟨hg1, hg2⟩
  refine ⟨?_, ?_, ?_⟩
  · intro hb ht
    rw [listLoop_step_eq sh n mh st hg hh]
    have e : (sh st.high).length - (st.height + (sh st.high).length - mh) =
        mh - st.height := by omega
    congr 1
    simp only [loopStep, if_neg hb, if_pos ht, e]
  · intro hb ht
    rw [listLoop_step_eq sh n mh st hg hh]
    have e : st.height + (sh (st.low - 1)).length - mh =
        (sh (st.low - 1)).length - (mh - st.height) := by omega
    congr 1
    simp only [loopStep, if_pos hb, if_pos ht, e]
  · exact listLoopFuel_height_le sh n mh _ st (le_of_lt hg1)

/-- C5 witness: the theorem applied at a concrete three-line entry and a
one-line remaining budget, extending at the high end. -/
theorem truncation_spec_witness :
    listLoop wTall 2 1 ⟨1, 1, 0, [], false⟩ =
      listLoop wTall 2 1 ⟨1, 2, 1, [["a"]], true⟩ := by
  have h := (truncation_spec wTall 2 1 ⟨1, 1, 0, [], false⟩ (by decide)
    (by decide) (by decide)).1 (by decide) (by decide)
  rw [h]
  decide

/-- C6: after the window `[low, high)` is realized for a non-empty set,
`List` shows a scrollbar, computed by the scrollbar algorithm at exactly
`(count, low, high, height)`, precisely when `low > 0` or
`high < count - 1`, reserving one display column (the effective width
drops by one); when `low = 0` and `high ≥ count - 1` no scrollbar is
shown and the width is untouched. -/
theorem scrollbar_condition (p : Provider) (width : Int) (mh : Nat)
    (st : ListingState) (r : LoopState) (hn : 0 < p.Len)
    (hr : r = runWindow (fun i => p.Show i width) p.Len mh
      (seedOf st.selected)) :
    ((listRun p width mh st).1.scrollbarOf =
        some (findScrollInterval p.Len r.low r.high r.height) ↔
      (0 < r.low ∨ r.high < p.Len - 1)) ∧
    ((0 < r.low ∨ r.high < p.Len - 1) →
      (listRun p width mh st).1.widthOf = some (width - 1)) ∧
    (r.low = 0 → p.Len - 1 ≤ r.high →
      (listRun p width mh st).1.scrollbarOf = none ∧
      (listRun p width mh st).1.widthOf = some width) := by
  subst hr
  have hn' : ¬ p.Len = 0 := by omega
  by_cases hc : 0 < (runWindow (fun i => p.Show i width) p.Len mh
      (seedOf st.selected)).low ∨
    (runWindow (fun i => p.Show i width) p.Len mh
      (seedOf st.selected)).high < p.Len - 1
  · refine ⟨?_, ?_, ?_⟩
    · simp [listRun, hn', hc, ListOutput.scrollbarOf]
    · intro _
      simp [listRun, hn', hc, ListOutput.widthOf]
    · intro h1 h2
      exact absurd hc (by omega)
  · refine ⟨?_, ?_, ?_⟩
    · simp [listRun, hn', hc, ListOutput.scrollbarOf]
    · intro h
      exact absurd h hc
    · intro h1 h2
      constructor
      · simp [listRun, hn', hc, ListOutput.scrollbarOf]
      · simp [listRun, hn', hc, ListOutput.widthOf]

/-- C6 witness: the theorem applied at the five-entry provider with
`maxHeight = 2`, where the realized window `[0, 2)` is a proper
sub-range, so one column is reserved. -/
theorem scrollbar_condition_witness :
    (listRun wProv 10 2 wState).1.widthOf = some (10 - 1) :=
  (scrollbar_condition wProv 10 2 wState _ (by decide) rfl).2.1 (by decide)

/-- C10: for a non-empty set, `List` stores `high - low` as the page
size.  With `maxHeight ≥ 1` the seed entry (`selectedIndex`, or 0 for
`-1`) is the first entry collected (the first iteration pushes exactly
the seed entry, truncated to the budget) and lies in the realized
window, so the page size is at least 1 and `pageUp`/`pageDown` move the
selection by at least one entry away from the boundaries; with
`maxHeight = 0` the loop collects nothing, the page size is 0, and
`pageUp`/`pageDown` leave any in-range selection unchanged. -/
theorem pagesize_spec (p : Provider) (width : Int) (mh : Nat)
    (st : ListingState) (r : LoopState) (hn : 0 < p.Len)
    (hsel : seedOf st.selected < p.Len)
    (hr : r = runWindow (fun i => p.Show i width) p.Len mh
      (seedOf st.selected)) :
    ((listRun p width mh st).2.pagesize = r.high - r.low) ∧
    (0 < mh →
      r.low ≤ seedOf st.selected ∧ seedOf st.selected < r.high ∧
      1 ≤ r.high - r.low ∧
      loopStep (fun i => p.Show i width) p.Len mh
          ⟨seedOf st.selected, seedOf st.selected, 0, [], false⟩ =
        ⟨seedOf st.selected, seedOf st.selected + 1,
          min (p.Show (seedOf st.selected) width).length mh,
          [(p.Show (seedOf st.selected) width).take mh], true⟩ ∧
      (∀ s : Int, 0 < s → pageUp p.Len (r.high - r.low) s ≤ s - 1) ∧
      (∀ s : Int, 0 ≤ s → s < (p.Len : Int) - 1 →
        s + 1 ≤ pageDown p.Len (r.high - r.low) s)) ∧
    (mh = 0 →
      r = ⟨seedOf st.selected, seedOf st.selected, 0, [], false⟩ ∧
      (listRun p width mh st).2.pagesize = 0 ∧
      (∀ s : Int, 0 ≤ s → pageUp p.Len 0 s = s) ∧
      (∀ s : Int, s < (p.Len : Int) → pageDown p.Len 0 s = s)) := by
  have hn' : ¬ p.Len = 0 := by omega
  have hpage : (listRun p width mh st).2.pagesize =
      (runWindow (fun i => p.Show i width) p.Len mh (seedOf st.selected)).high -
      (runWindow (fun i => p.Show i width) p.Len mh (seedOf st.selected)).low := by
    simp [listRun, hn']
  refine ⟨by rw [hr]; exact hpage, ?_, ?_⟩
  · intro hmh
    have hguard : loopGuard p.Len mh
        ⟨seedOf st.selected, seedOf st.selected, 0, [], false⟩ := by
      refine ⟨hmh, ?_⟩
      rintro ⟨h0, hn2⟩
      dsimp at h0 hn2
      omega
    have hh : (⟨seedOf st.selected, seedOf st.selected, 0, [],
        false⟩ : LoopState).high ≤ p.Len := le_of_lt hsel
    have hmono := listLoopFuel_mono (fun i => p.Show i width) p.Len mh
      (loopMeasure p.Len ⟨seedOf st.selected, seedOf st.selected, 0, [], false⟩)
      ⟨seedOf st.selected, seedOf st.selected, 0, [], false⟩
    have hlow : r.low ≤ seedOf st.selected := by rw [hr]; exact hmono.1
    have hstep : runWindow (fun i => p.Show i width) p.Len mh
        (seedOf st.selected) =
        listLoop (fun i => p.Show i width) p.Len mh
          (loopStep (fun i => p.Show i width) p.Len mh
            ⟨seedOf st.selected, seedOf st.selected, 0, [], false⟩) :=
      listLoop_step_eq (fun i => p.Show i width) p.Len mh _ hguard hh
    have hhigh : seedOf st.selected + 1 ≤ r.high := by
      rw [hr, hstep,
        loopStep_init (fun i => p.Show i width) p.Len mh _ hsel]
      unfold listLoop
      exact (listLoopFuel_mono (fun i => p.Show i width) p.Len mh
        (loopMeasure p.Len ⟨seedOf st.selected, seedOf st.selected + 1,
          min (p.Show (seedOf st.selected) width).length mh,
          [(p.Show (seedOf st.selected) width).take mh], true⟩)
        ⟨seedOf st.selected, seedOf st.selected + 1,
          min (p.Show (seedOf st.selected) width).length mh,
          [(p.Show (seedOf st.selected) width).take mh], true⟩).2
    refine ⟨hlow, by omega, by omega, loopStep_init _ p.Len mh _ hsel,
      ?_, ?_⟩
    · intro s hs
      simp only [pageUp, if_neg hn']
      split_ifs <;> omega
    · intro s hs1 hs2
      simp only [pageDown, if_neg hn']
      split_ifs <;> omega
  · intro hmh0
    subst hmh0
    have hr0 : r = ⟨seedOf st.selected, seedOf st.selected, 0, [], false⟩ := by
      rw [hr]
      exact listLoop_stop _ _ _ _ (fun hg => Nat.not_lt_zero _ hg.1)
    refine ⟨hr0, ?_, ?_, ?_⟩
    · rw [hpage, ← hr, hr0]
      simp
    · intro s hs
      simp only [pageUp, if_neg hn']
      split_ifs <;> omega
    · intro s hs
      simp only [pageDown, if_neg hn']
      split_ifs <;> omega

/-- C10 witness: the theorem applied at the five-entry provider,
`maxHeight = 2`, selection 0: the page size equals the realized window
size 2. -/
theorem pagesize_spec_witness :
    (listRun wProv 10 2 wState).2.pagesize = 2 := by
  have h := (pagesize_spec wProv 10 2 wState _ (by decide) (by decide) rfl).1
  rw [h]
  decide

end ElvishListing
